import Mathlib

/-!
Verification of the k-means clustering engines of this repository.

The repository contains two interchangeable k-means implementations behind
one interface (`IKMeans` in `framework/internal/interface.hpp`):

* a sequential reference engine (`serial/implementation.hpp`), and
* a TBB-based concurrent engine (`framework/implementation.hpp`),

plus a CLI harness (`framework/k-means.cpp`) that validates the `k` and
`iters` arguments, loads the points, runs one engine and stores the results.

Shallow embedding conventions:

* `point_t` has `coord_t = std::int64_t` coordinates.  Within the documented
  coordinate range the widened 64-bit distance and sum computations are exact
  (signed overflow would be undefined behaviour in the source), so coordinates
  are embedded as unbounded `Int` and all arithmetic is exact.
* The assignment type `ASGN` is `std::uint8_t`; the casts `(ASGN)nearest` in
  both engines are embedded as `% 256`.
* C++ integer division `/` on `int64_t` truncates toward zero; it is embedded
  as `Int.tdiv`.
* Out-of-bounds vector accesses (undefined behaviour in the source) are
  surfaced by `Option`: every function that indexes a vector with a possibly
  out-of-range index is `Option`-valued and returns `none` exactly when the
  source would read past the end.
* The concurrent engine's scheduling nondeterminism is modelled by a
  parameter `σ`: TBB tasks append points into the per-cluster
  `tbb::concurrent_vector`s in an order that depends on the schedule, so each
  cluster's accumulated member list is some permutation of the members in
  point order.  `σ it c` is the reordering that iteration `it` applies to
  cluster `c`'s member list; theorems quantify over every `σ` whose output is
  a permutation of its input, covering every worker-pool size, chunking and
  task interleaving.  `tbb::parallel_reduce` over the member list is a sum of
  `Int`s, whose value the reduction grouping cannot affect.
-/

/-- 2D point with `int64_t` coordinates (`point_t` in `interface.hpp`);
also used as a centroid and as a coordinate-sum accumulator. -/
@[ext]
structure point_t where
  x : Int
  y : Int
deriving DecidableEq, Repr

/-- Squared Euclidean distance with differences widened to 64 bits
(`KMeans::distance`, identical in both engines). -/
def distance (point centroid : point_t) : Int :=
  let dx : Int := point.x - centroid.x
  let dy : Int := point.y - centroid.y
  dx * dx + dy * dy

/-- The scan loop of `KMeans::getNearestCluster`: `t` is the not yet visited
tail of the centroid vector, `i` the index of its head, `best`/`bestD` the
current minimiser and its distance.  Only a strictly smaller distance updates
`best`, so the first minimum (lowest index) wins. -/
def nearestAux (p : point_t) : List point_t → Nat → Nat → Int → Nat
  | [], _, best, _ => best
  | c :: t, i, best, bestD =>
    let d := distance p c
    if d < bestD then nearestAux p t (i + 1) i d
    else nearestAux p t (i + 1) best bestD

/-- `KMeans::getNearestCluster` (identical in both engines).  The source
unconditionally reads `centroids[0]`, so an empty centroid vector is an
out-of-bounds access, surfaced as `none`. -/
def getNearestCluster (p : point_t) (centroids : List point_t) : Option Nat :=
  match centroids with
  | [] => none
  | c0 :: rest => some (nearestAux p rest 1 0 (distance p c0))

/-- Total version of `getNearestCluster`, used to state per-cluster
properties; it agrees with `getNearestCluster` on nonempty centroid lists. -/
def nearestD (p : point_t) (cs : List point_t) : Nat :=
  (getNearestCluster p cs).getD 0

/-- Sum of the x coordinates of a list of points. -/
def sumX (l : List point_t) : Int := (l.map point_t.x).sum

/-- Sum of the y coordinates of a list of points. -/
def sumY (l : List point_t) : Int := (l.map point_t.y).sum

/-- The points of `ps` whose nearest centroid (among `cs`) is index `c`:
the members of cluster `c` in the iteration that starts from centroids
`cs`. -/
def membersOf (ps cs : List point_t) (c : Nat) : List point_t :=
  ps.filter (fun p => nearestD p cs == c)

/-- Per-cluster centroid update rule shared by both engines, written as an
indexed map over the centroid vector: a cluster with members gets the
truncated mean of its members, an empty cluster keeps its centroid.
`i` is the index of the head of `cst` in the full centroid vector `cs`. -/
def stepAux (ps cs : List point_t) : Nat → List point_t → List point_t
  | _, [] => []
  | i, c :: rest =>
    let mem := membersOf ps cs i
    (if mem.length = 0 then c
     else ⟨(sumX mem).tdiv mem.length, (sumY mem).tdiv mem.length⟩)
      :: stepAux ps cs (i + 1) rest

/-- One iteration's centroid update, starting from centroids `cs`. -/
def stepCentroids (ps cs : List point_t) : List point_t :=
  stepAux ps cs 0 cs

/-! ## Sequential engine (`serial/implementation.hpp`) -/

/-- The per-point loop of one iteration of the serial `KMeans::compute`
(lines 86-92): for each point, find the nearest centroid, record the
`(ASGN)`-cast index into the assignment array (the array is rewritten in
point order every iteration, so it is modelled as an appended list), add the
point's coordinates into that cluster's sum and bump its count. -/
def serialScan (cs : List point_t) :
    List point_t → List point_t × List Nat × List Nat →
    Option (List point_t × List Nat × List Nat)
  | [], st => some st
  | p :: ps, (sums, counts, asgn) =>
    match getNearestCluster p cs with
    | none => none
    | some nearest =>
      let s := sums.getD nearest ⟨0, 0⟩
      serialScan cs ps
        (sums.set nearest ⟨s.x + p.x, s.y + p.y⟩,
         counts.set nearest (counts.getD nearest 0 + 1),
         asgn ++ [nearest % 256])

/-- The per-cluster loop of one iteration of the serial `KMeans::compute`
(lines 94-98): an empty cluster keeps its previous centroid, otherwise the
centroid becomes the truncated mean `sum / count` per axis. -/
def updateCentroids : List point_t → List point_t → List Nat → List point_t
  | c :: cr, s :: sr, cnt :: cntr =>
    (if cnt = 0 then c else ⟨s.x.tdiv cnt, s.y.tdiv cnt⟩)
      :: updateCentroids cr sr cntr
  | cs, _, _ => cs

/-- One full iteration of the serial engine.  The engine's `sums`/`counts`
buffers are sized `k` by `init` and fully reset at the start of every
iteration (lines 81-84), so each iteration starts from zeroed buffers of
length `k`. -/
def serialIter (ps : List point_t) (k : Nat) (cs : List point_t) :
    Option (List point_t × List Nat) :=
  match serialScan cs ps (List.replicate k ⟨0, 0⟩, List.replicate k 0, []) with
  | none => none
  | some (sums, counts, asgn) => some (updateCentroids cs sums counts, asgn)

/-- The `while (iters > 0)` loop of the serial `KMeans::compute`. -/
def serialLoop (ps : List point_t) (k : Nat) :
    Nat → List point_t → List Nat → Option (List point_t × List Nat)
  | 0, cs, asgn => some (cs, asgn)
  | it + 1, cs, _asgn =>
    match serialIter ps k cs with
    | none => none
    | some (cs2, asgn2) => serialLoop ps k it cs2 asgn2

/-- The serial `KMeans::compute` (lines 67-100): seed the centroids from the
first `k` points (an out-of-bounds read when there are fewer than `k`
points), zero the assignment array (`resize` value-initialises), then run the
iteration loop.  Assumes `init` was called with the same `k`, as the harness
does. -/
def serialCompute (ps : List point_t) (k iters : Nat) :
    Option (List point_t × List Nat) :=
  if k ≤ ps.length then
    serialLoop ps k iters (ps.take k) (List.replicate ps.length 0)
  else none

/-! ## Concurrent engine (`framework/implementation.hpp`) -/

/-- Phase A of the concurrent `KMeans::compute` (lines 92-102), sequenced in
point order: the parallel loop runs `i` over `[0, POINTS_SIZE)` — the point
count recorded by `init`, not the length of the vector passed to `compute` —
reads `points[i]` (out of bounds when `i` is past the end), finds the nearest
centroid and produces the `(ASGN)`-cast cluster index together with the
point.  `i` is the next index, `fuel` the number of indices still to visit. -/
def phaseAFrom (ps cs : List point_t) (i : Nat) :
    Nat → Option (List (Nat × point_t))
  | 0 => some []
  | fuel + 1 =>
    match ps.get? i with
    | none => none
    | some p =>
      match getNearestCluster p cs with
      | none => none
      | some nearest =>
        (phaseAFrom ps cs (i + 1) fuel).map
          (fun rest => (nearest % 256, p) :: rest)

/-- Phase A over the whole recorded index range `[0, n)`. -/
def concPhaseA (ps cs : List point_t) (n : Nat) : Option (List (Nat × point_t)) :=
  phaseAFrom ps cs 0 n

/-- Phase B of the concurrent `KMeans::compute` (lines 104-130), per cluster
index `i`: cluster `i`'s accumulated member list is the Phase-A members in
point order reordered by the schedule `σ i` (the `tbb::concurrent_vector`
append order); an empty cluster is skipped, otherwise the members'
coordinates are summed (`tbb::parallel_reduce` from `(0,0)`) and divided by
the member count.  The source iterates `i` over `[0, k)` and the centroid
vector has length `k`, so the loop is structured over the centroid list. -/
def concUpdate (σ : Nat → List point_t → List point_t)
    (pairs : List (Nat × point_t)) : Nat → List point_t → List point_t
  | _, [] => []
  | i, c :: rest =>
    let mem := σ i ((pairs.filter (fun q => q.1 == i)).map Prod.snd)
    (if mem.length = 0 then c
     else ⟨(sumX mem).tdiv mem.length, (sumY mem).tdiv mem.length⟩)
      :: concUpdate σ pairs (i + 1) rest

/-- One full iteration of the concurrent engine with schedule `σ`.  The
assignment writes `assignments[i] = (ASGN)nearest` happen for `i ∈ [0, n)`
only; the remaining slots keep the `0` they were given by the initial
`resize`.  (The source performs the writes only on the last iteration, but
every iteration would write the same formula over the same slots, so the
retained final value is the last iteration's formula either way.) -/
def concIter (ps cs : List point_t) (n : Nat)
    (σ : Nat → List point_t → List point_t) :
    Option (List point_t × List Nat) :=
  match concPhaseA ps cs n with
  | none => none
  | some pairs =>
    some (concUpdate σ pairs 0 cs,
          pairs.map Prod.fst ++ List.replicate (ps.length - n) 0)

/-- The `while (iters > 0)` loop of the concurrent `KMeans::compute`;
`σ it` is the schedule of the iteration run when `it + 1` iterations
remain. -/
def concLoop (ps : List point_t) (k n : Nat)
    (σ : Nat → Nat → List point_t → List point_t) :
    Nat → List point_t → List Nat → Option (List point_t × List Nat)
  | 0, cs, asgn => some (cs, asgn)
  | it + 1, cs, _asgn =>
    match concIter ps cs n (σ it) with
    | none => none
    | some (cs2, asgn2) => concLoop ps k n σ it cs2 asgn2

/-- The concurrent `KMeans::compute` (lines 73-132): seed the centroids from
the first `k` points, zero the assignment array, then iterate.  `n` is the
`POINTS_SIZE` recorded by the last `init` call. -/
def concCompute (ps : List point_t) (k iters n : Nat)
    (σ : Nat → Nat → List point_t → List point_t) :
    Option (List point_t × List Nat) :=
  if k ≤ ps.length then
    concLoop ps k n σ iters (ps.take k) (List.replicate ps.length 0)
  else none

/-! ## Initialization and the harness's argument check -/

/-- The serial `KMeans::init` effect on the `sums` buffer:
`std::vector::resize(k)` keeps the first `min(k, old)` elements and
value-initialises the rest, so the new size is exactly `k`. -/
def serialInitSums (old : List point_t) (k : Nat) : List point_t :=
  old.take k ++ List.replicate (k - old.length) ⟨0, 0⟩

/-- The serial `KMeans::init` effect on the `counts` buffer
(`counts.resize(k)`). -/
def serialInitCounts (old : List Nat) (k : Nat) : List Nat :=
  old.take k ++ List.replicate (k - old.length) 0

/-- The concurrent `KMeans::init` effect on `temp_assignments`
(lines 53-59): `while (k--) temp_assignments.push_back(...)` appends `k`
fresh empty per-cluster containers and never clears prior storage. -/
def concInit (old : List (List point_t)) (k : Nat) : List (List point_t) :=
  old ++ List.replicate k []

/-- The CLI harness's argument validation (`k-means.cpp`,
`if (k == 0 || iters == 0 || k > 256 || iters > 1000)` prints usage and
exits without running any engine). -/
def harnessArgsOk (k iters : Nat) : Bool :=
  !(k == 0 || iters == 0 || 256 < k || 1000 < iters)

/-! ## Basic lemmas: distance and list access -/

theorem distance_eq (p q : point_t) :
    distance p q = (p.x - q.x) * (p.x - q.x) + (p.y - q.y) * (p.y - q.y) := rfl

theorem distance_nonneg (p q : point_t) : 0 ≤ distance p q := by
  rw [distance_eq]
  exact add_nonneg (mul_self_nonneg _) (mul_self_nonneg _)

theorem distance_eq_zero_iff (p q : point_t) : distance p q = 0 ↔ p = q := by
  rw [distance_eq]
  constructor
  · intro h
    have hx := mul_self_nonneg (p.x - q.x)
    have hy := mul_self_nonneg (p.y - q.y)
    have hx0 : (p.x - q.x) * (p.x - q.x) = 0 := le_antisymm (by linarith) hx
    have hy0 : (p.y - q.y) * (p.y - q.y) = 0 := le_antisymm (by linarith) hy
    have h1 : p.x - q.x = 0 := mul_self_eq_zero.mp hx0
    have h2 : p.y - q.y = 0 := mul_self_eq_zero.mp hy0
    ext
    · omega
    · omega
  · rintro rfl
    ring

theorem getD_set_eq {α : Type} (l : List α) (i : Nat) (a d : α) (h : i < l.length) :
    (l.set i a).getD i d = a := by
  simp [List.getD_eq_getElem?_getD, List.getElem?_set, h]

theorem getD_set_ne {α : Type} (l : List α) {i j : Nat} (a d : α) (h : i ≠ j) :
    (l.set i a).getD j d = l.getD j d := by
  simp [List.getD_eq_getElem?_getD, List.getElem?_set, h]

theorem getD_replicate {α : Type} {n i : Nat} (a d : α) (h : i < n) :
    (List.replicate n a).getD i d = a := by
  simp [List.getD_eq_getElem?_getD, List.getElem?_replicate, h]

/-! ## Nearest-centroid search: first minimum wins -/

theorem nearestAux_spec (p : point_t) (cs : List point_t) :
    ∀ (t : List point_t) (i best : Nat) (bestD : Int),
      cs.drop i = t → best < i → best < cs.length →
      bestD = distance p (cs.getD best ⟨0, 0⟩) →
      (∀ j, j < i → bestD ≤ distance p (cs.getD j ⟨0, 0⟩)) →
      (∀ j, j < best → bestD < distance p (cs.getD j ⟨0, 0⟩)) →
      ∀ m, nearestAux p t i best bestD = m →
        m < cs.length ∧
        (∀ j, j < cs.length →
          distance p (cs.getD m ⟨0, 0⟩) ≤ distance p (cs.getD j ⟨0, 0⟩)) ∧
        (∀ j, j < m →
          distance p (cs.getD m ⟨0, 0⟩) < distance p (cs.getD j ⟨0, 0⟩)) := by
  intro t
  induction t with
  | nil =>
    intro i best bestD hdrop hbi hbl hd hmin hstrict m hm
    have hlen : cs.length ≤ i := List.drop_eq_nil_iff.mp hdrop
    have hm2 : best = m := hm
    subst hm2
    subst hd
    exact ⟨hbl, fun j hj => hmin j (by omega), hstrict⟩
  | cons c t ih =>
    intro i best bestD hdrop hbi hbl hd hmin hstrict m hm
    have hi : i < cs.length := by
      by_contra hcon
      push_neg at hcon
      have hnil : cs.drop i = [] := List.drop_eq_nil_iff.mpr hcon
      rw [hnil] at hdrop
      exact absurd hdrop (by simp)
    have hgc : cs.getD i ⟨0, 0⟩ = c := by
      have h0 : cs[i]? = some c := by
        have h1 := List.getElem?_drop cs i 0
        rw [hdrop] at h1
        simpa using h1.symm
      simp [List.getD_eq_getElem?_getD, h0]
    have hdrop1 : cs.drop (i + 1) = t := by
      have h1 := List.drop_drop 1 i cs
      rw [hdrop] at h1
      simpa using h1.symm
    simp only [nearestAux] at hm
    by_cases hlt : distance p c < bestD
    · rw [if_pos hlt] at hm
      refine ih (i + 1) i (distance p c) hdrop1 (by omega) hi (by rw [hgc]) ?_ ?_ m hm
      · intro j hj
        rcases Nat.lt_succ_iff_lt_or_eq.mp hj with hj' | rfl
        · exact le_trans (le_of_lt hlt) (hmin j hj')
        · rw [hgc]
      · intro j hj
        exact lt_of_lt_of_le hlt (hmin j hj)
    · rw [if_neg hlt] at hm
      push_neg at hlt
      refine ih (i + 1) best bestD hdrop1 (by omega) hbl hd ?_ hstrict m hm
      intro j hj
      rcases Nat.lt_succ_iff_lt_or_eq.mp hj with hj' | rfl
      · exact hmin j hj'
      · rw [hgc]
        exact hlt

theorem getNearestCluster_spec (p : point_t) (cs : List point_t) (h : cs ≠ []) :
    ∃ m, getNearestCluster p cs = some m ∧ m < cs.length ∧
      (∀ j, j < cs.length →
        distance p (cs.getD m ⟨0, 0⟩) ≤ distance p (cs.getD j ⟨0, 0⟩)) ∧
      (∀ j, j < m →
        distance p (cs.getD m ⟨0, 0⟩) < distance p (cs.getD j ⟨0, 0⟩)) := by
  match cs, h with
  | c0 :: rest, _ =>
    refine ⟨nearestAux p rest 1 0 (distance p c0), rfl, ?_⟩
    refine nearestAux_spec p (c0 :: rest) rest 1 0 (distance p c0)
      (by simp) (by omega) (by simp) rfl ?_ (by omega) _ rfl
    intro j hj
    have hj0 : j = 0 := by omega
    subst hj0
    exact le_refl _

theorem getNearestCluster_eq_some (p : point_t) (cs : List point_t) (h : cs ≠ []) :
    getNearestCluster p cs = some (nearestD p cs) := by
  match cs, h with
  | c0 :: rest, _ => rfl

theorem nearestD_lt_length (p : point_t) (cs : List point_t) (h : cs ≠ []) :
    nearestD p cs < cs.length := by
  obtain ⟨m, hm, hlt, -, -⟩ := getNearestCluster_spec p cs h
  have : nearestD p cs = m := by rw [nearestD, hm]; rfl
  omega

theorem nearestD_min (p : point_t) (cs : List point_t) (h : cs ≠ []) :
    ∀ j, j < cs.length →
      distance p (cs.getD (nearestD p cs) ⟨0, 0⟩) ≤ distance p (cs.getD j ⟨0, 0⟩) := by
  obtain ⟨m, hm, -, hmin, -⟩ := getNearestCluster_spec p cs h
  have he : nearestD p cs = m := by rw [nearestD, hm]; rfl
  rw [he]
  exact hmin

/-! ## The serial iteration: fold-accumulation equals per-cluster filter sums -/

theorem sumX_cons (p : point_t) (l : List point_t) : sumX (p :: l) = p.x + sumX l := by
  simp [sumX]

theorem sumY_cons (p : point_t) (l : List point_t) : sumY (p :: l) = p.y + sumY l := by
  simp [sumY]

theorem membersOf_cons (p : point_t) (ps cs : List point_t) (c : Nat) :
    membersOf (p :: ps) cs c =
      if nearestD p cs = c then p :: membersOf ps cs c else membersOf ps cs c := by
  by_cases hc : nearestD p cs = c
  · simp [membersOf, List.filter_cons, hc]
  · simp [membersOf, List.filter_cons, hc]

theorem serialScan_spec (cs : List point_t) (hcs : cs ≠ []) :
    ∀ (ps : List point_t) (sums : List point_t) (counts : List Nat) (asgn : List Nat),
      cs.length ≤ sums.length → cs.length ≤ counts.length →
      ∃ s n, serialScan cs ps (sums, counts, asgn) =
          some (s, n, asgn ++ ps.map (fun p => nearestD p cs % 256)) ∧
        s.length = sums.length ∧ n.length = counts.length ∧
        ∀ c, c < cs.length →
          (s.getD c ⟨0, 0⟩).x = (sums.getD c ⟨0, 0⟩).x + sumX (membersOf ps cs c) ∧
          (s.getD c ⟨0, 0⟩).y = (sums.getD c ⟨0, 0⟩).y + sumY (membersOf ps cs c) ∧
          n.getD c 0 = counts.getD c 0 + (membersOf ps cs c).length := by
  intro ps
  induction ps with
  | nil =>
    intro sums counts asgn hs hn
    refine ⟨sums, counts, by simp [serialScan], rfl, rfl, ?_⟩
    intro c hc
    simp [membersOf, sumX, sumY]
  | cons p ps ih =>
    intro sums counts asgn hs hn
    have hm : getNearestCluster p cs = some (nearestD p cs) :=
      getNearestCluster_eq_some p cs hcs
    have hmlt : nearestD p cs < cs.length := nearestD_lt_length p cs hcs
    obtain ⟨s, n, hsome, hsl, hnl, hval⟩ :=
      ih (sums.set (nearestD p cs)
            ⟨(sums.getD (nearestD p cs) ⟨0, 0⟩).x + p.x,
             (sums.getD (nearestD p cs) ⟨0, 0⟩).y + p.y⟩)
         (counts.set (nearestD p cs) (counts.getD (nearestD p cs) 0 + 1))
         (asgn ++ [nearestD p cs % 256])
         (by rw [List.length_set]; exact hs) (by rw [List.length_set]; exact hn)
    refine ⟨s, n, ?_, by rw [hsl, List.length_set], by rw [hnl, List.length_set], ?_⟩
    · rw [show serialScan cs (p :: ps) (sums, counts, asgn) =
            match getNearestCluster p cs with
            | none => none
            | some nearest =>
              serialScan cs ps
                (sums.set nearest
                  ⟨(sums.getD nearest ⟨0, 0⟩).x + p.x,
                   (sums.getD nearest ⟨0, 0⟩).y + p.y⟩,
                 counts.set nearest (counts.getD nearest 0 + 1),
                 asgn ++ [nearest % 256]) from rfl]
      rw [hm]
      exact hsome.trans (by simp)
    · intro c hc
      obtain ⟨hx, hy, hcnt⟩ := hval c hc
      rw [membersOf_cons]
      by_cases hceq : nearestD p cs = c
      · subst hceq
        rw [if_pos rfl]
        have hslen : nearestD p cs < sums.length := lt_of_lt_of_le hmlt hs
        have hnlen : nearestD p cs < counts.length := lt_of_lt_of_le hmlt hn
        rw [getD_set_eq _ _ _ _ hslen] at hx hy
        rw [getD_set_eq _ _ _ _ hnlen] at hcnt
        refine ⟨?_, ?_, ?_⟩
        · rw [hx, sumX_cons]; ring
        · rw [hy, sumY_cons]; ring
        · rw [hcnt]; simp; omega
      · rw [if_neg hceq]
        rw [getD_set_ne _ _ _ hceq] at hx hy
        rw [getD_set_ne _ _ _ hceq] at hcnt
        exact ⟨hx, hy, hcnt⟩

theorem updateCentroids_eq_stepAux (ps cs : List point_t) :
    ∀ (cst ss : List point_t) (ns : List Nat) (i : Nat),
      ss.length = cst.length → ns.length = cst.length →
      (∀ j, j < cst.length →
        (ss.getD j ⟨0, 0⟩).x = sumX (membersOf ps cs (i + j)) ∧
        (ss.getD j ⟨0, 0⟩).y = sumY (membersOf ps cs (i + j)) ∧
        ns.getD j 0 = (membersOf ps cs (i + j)).length) →
      updateCentroids cst ss ns = stepAux ps cs i cst := by
  intro cst
  induction cst with
  | nil =>
    intro ss ns i hs hn hval
    have hs0 : ss = [] := List.length_eq_zero.mp hs
    have hn0 : ns = [] := List.length_eq_zero.mp hn
    subst hs0; subst hn0
    rfl
  | cons c cr ih =>
    intro ss ns i hs hn hval
    match ss, ns with
    | s0 :: sr, n0 :: nr =>
      obtain ⟨hx0, hy0, hc0⟩ := hval 0 (by simp)
      simp only [List.getD_cons_zero, Nat.add_zero] at hx0 hy0 hc0
      have htail : updateCentroids cr sr nr = stepAux ps cs (i + 1) cr := by
        refine ih sr nr (i + 1) (by simpa using hs) (by simpa using hn) ?_
        intro j hj
        have hshift : i + 1 + j = i + (j + 1) := by omega
        rw [hshift]
        have := hval (j + 1) (by simpa using Nat.succ_lt_succ hj)
        simpa using this
      show (if n0 = 0 then c else ⟨s0.x.tdiv n0, s0.y.tdiv n0⟩) :: updateCentroids cr sr nr =
        (if (membersOf ps cs i).length = 0 then c
         else ⟨(sumX (membersOf ps cs i)).tdiv (membersOf ps cs i).length,
               (sumY (membersOf ps cs i)).tdiv (membersOf ps cs i).length⟩)
          :: stepAux ps cs (i + 1) cr
      rw [htail]
      congr 1
      rw [hc0]
      by_cases hz : (membersOf ps cs i).length = 0
      · rw [if_pos hz, if_pos hz]
      · rw [if_neg hz, if_neg hz, hx0, hy0]

theorem stepAux_length (ps cs : List point_t) :
    ∀ (cst : List point_t) (i : Nat), (stepAux ps cs i cst).length = cst.length := by
  intro cst
  induction cst with
  | nil => intro i; rfl
  | cons c cr ih => intro i; simp [stepAux, ih]

theorem stepCentroids_length (ps cs : List point_t) :
    (stepCentroids ps cs).length = cs.length :=
  stepAux_length ps cs cs 0

theorem serialIter_spec (ps : List point_t) (k : Nat) (cs : List point_t)
    (hcs : cs ≠ []) (hlen : cs.length = k) :
    serialIter ps k cs =
      some (stepCentroids ps cs, ps.map (fun p => nearestD p cs % 256)) := by
  obtain ⟨s, n, hsome, hsl, hnl, hval⟩ :=
    serialScan_spec cs hcs ps (List.replicate k ⟨0, 0⟩) (List.replicate k 0) []
      (by simp [hlen]) (by simp [hlen])
  rw [serialIter, hsome]
  simp only [List.nil_append]
  have hupd : updateCentroids cs s n = stepCentroids ps cs := by
    refine updateCentroids_eq_stepAux ps cs cs s n 0
      (by rw [hsl, List.length_replicate, hlen]) (by rw [hnl, List.length_replicate, hlen]) ?_
    intro j hj
    obtain ⟨hx, hy, hc⟩ := hval j hj
    rw [getD_replicate _ _ (hlen ▸ hj)] at hx hy
    rw [getD_replicate _ _ (hlen ▸ hj)] at hc
    simp only [Nat.zero_add]
    exact ⟨by simpa using hx, by simpa using hy, by simpa using hc⟩
  rw [hupd]

theorem stepAux_getD (ps cs : List point_t) :
    ∀ (cst : List point_t) (i j : Nat), j < cst.length →
      (stepAux ps cs i cst).getD j ⟨0, 0⟩ =
        (if (membersOf ps cs (i + j)).length = 0 then cst.getD j ⟨0, 0⟩
         else ⟨(sumX (membersOf ps cs (i + j))).tdiv (membersOf ps cs (i + j)).length,
               (sumY (membersOf ps cs (i + j))).tdiv (membersOf ps cs (i + j)).length⟩) := by
  intro cst
  induction cst with
  | nil => intro i j hj; simp at hj
  | cons c cr ih =>
    intro i j hj
    match j with
    | 0 =>
      show (stepAux ps cs i (c :: cr)).getD 0 ⟨0, 0⟩ = _
      simp only [stepAux, List.getD_cons_zero, Nat.add_zero]
    | j + 1 =>
      have hj' : j < cr.length := by simpa using hj
      have := ih (i + 1) j hj'
      have hshift : i + 1 + j = i + (j + 1) := by omega
      rw [hshift] at this
      simpa only [stepAux, List.getD_cons_succ] using this

theorem stepCentroids_getD (ps cs : List point_t) (c : Nat) (hc : c < cs.length) :
    (stepCentroids ps cs).getD c ⟨0, 0⟩ =
      (if (membersOf ps cs c).length = 0 then cs.getD c ⟨0, 0⟩
       else ⟨(sumX (membersOf ps cs c)).tdiv (membersOf ps cs c).length,
             (sumY (membersOf ps cs c)).tdiv (membersOf ps cs c).length⟩) := by
  have := stepAux_getD ps cs cs 0 c hc
  simpa [stepCentroids] using this

theorem serialLoop_succ (ps : List point_t) (k : Nat) :
    ∀ (it : Nat) (cs : List point_t) (a : List Nat),
      serialLoop ps k (it + 1) cs a =
        (serialLoop ps k it cs a).bind (fun r => serialIter ps k r.1) := by
  intro it
  induction it with
  | zero =>
    intro cs a
    have h1 : serialLoop ps k (0 + 1) cs a =
        match serialIter ps k cs with
        | none => none
        | some (cs2, a2) => serialLoop ps k 0 cs2 a2 := rfl
    rw [h1]
    cases hiter : serialIter ps k cs with
    | none => exact hiter.symm
    | some r => cases r with | mk cs2 a2 => exact hiter.symm
  | succ it ih =>
    intro cs a
    have h1 : serialLoop ps k (it + 1 + 1) cs a =
        match serialIter ps k cs with
        | none => none
        | some (cs2, a2) => serialLoop ps k (it + 1) cs2 a2 := rfl
    have h2 : serialLoop ps k (it + 1) cs a =
        match serialIter ps k cs with
        | none => none
        | some (cs2, a2) => serialLoop ps k it cs2 a2 := rfl
    rw [h1, h2]
    cases hiter : serialIter ps k cs with
    | none => rfl
    | some r => cases r with | mk cs2 a2 => exact ih cs2 a2

theorem serialLoop_some (ps : List point_t) (k : Nat) (hk : 1 ≤ k) :
    ∀ (it : Nat) (cs : List point_t) (a : List Nat), cs.length = k →
      ∃ cs2 a2, serialLoop ps k it cs a = some (cs2, a2) ∧ cs2.length = k := by
  intro it
  induction it with
  | zero => intro cs a hlen; exact ⟨cs, a, rfl, hlen⟩
  | succ it ih =>
    intro cs a hlen
    have hne : cs ≠ [] := by
      intro hnil
      rw [hnil] at hlen
      simp at hlen
      omega
    have hiter := serialIter_spec ps k cs hne hlen
    obtain ⟨cs2, a2, hloop, hlen2⟩ :=
      ih (stepCentroids ps cs) (ps.map (fun p => nearestD p cs % 256))
        (by rw [stepCentroids_length, hlen])
    refine ⟨cs2, a2, ?_, hlen2⟩
    show (match serialIter ps k cs with
          | none => none
          | some (cs2, asgn2) => serialLoop ps k it cs2 asgn2) = some (cs2, a2)
    rw [hiter]
    exact hloop

theorem length_take_of_le {α : Type} (l : List α) (k : Nat) (h : k ≤ l.length) :
    (l.take k).length = k := by
  simp [List.length_take]
  omega

theorem serialCompute_final (ps : List point_t) (k iters : Nat)
    (hk1 : 1 ≤ k) (hkp : k ≤ ps.length) (hit : 1 ≤ iters) :
    ∃ csPrev aPrev, serialCompute ps k (iters - 1) = some (csPrev, aPrev) ∧
      csPrev.length = k ∧
      serialCompute ps k iters =
        some (stepCentroids ps csPrev, ps.map (fun p => nearestD p csPrev % 256)) := by
  have htk : (ps.take k).length = k := length_take_of_le ps k hkp
  obtain ⟨csPrev, aPrev, hloop, hlenPrev⟩ :=
    serialLoop_some ps k hk1 (iters - 1) (ps.take k) (List.replicate ps.length 0) htk
  refine ⟨csPrev, aPrev, ?_, hlenPrev, ?_⟩
  · rw [serialCompute, if_pos hkp]
    exact hloop
  · have hne : csPrev ≠ [] := by
      intro hnil; rw [hnil] at hlenPrev; simp at hlenPrev; omega
    rw [serialCompute, if_pos hkp]
    have hpeel : iters = (iters - 1) + 1 := by omega
    rw [hpeel, serialLoop_succ, hloop]
    show serialIter ps k csPrev = _
    rw [serialIter_spec ps k csPrev hne hlenPrev]

/-! ## The concurrent iteration equals the serial one -/

theorem phaseAFrom_some (ps cs : List point_t) (hcs : cs ≠ []) :
    ∀ (fuel i : Nat), i + fuel ≤ ps.length →
      phaseAFrom ps cs i fuel =
        some (((ps.drop i).take fuel).map (fun p => (nearestD p cs % 256, p))) := by
  intro fuel
  induction fuel with
  | zero => intro i hle; simp [phaseAFrom]
  | succ fuel ih =>
    intro i hle
    have hi : i < ps.length := by omega
    have hget : ps.get? i = some ps[i] := by
      rw [List.get?_eq_getElem?]
      exact List.getElem?_eq_getElem hi
    have hdrop : ps.drop i = ps[i] :: ps.drop (i + 1) := List.drop_eq_getElem_cons hi
    show (match ps.get? i with
          | none => none
          | some p =>
            match getNearestCluster p cs with
            | none => none
            | some nearest =>
              (phaseAFrom ps cs (i + 1) fuel).map
                (fun rest => (nearest % 256, p) :: rest)) = _
    simp only [hget, getNearestCluster_eq_some _ cs hcs, ih (i + 1) (by omega),
      Option.map_some']
    rw [hdrop, List.take_succ_cons, List.map_cons]

theorem phaseAFrom_none (ps cs : List point_t) (hcs : cs ≠ []) :
    ∀ (fuel i : Nat), ps.length < i + fuel → i ≤ ps.length →
      phaseAFrom ps cs i fuel = none := by
  intro fuel
  induction fuel with
  | zero => intro i h1 h2; omega
  | succ fuel ih =>
    intro i h1 h2
    show (match ps.get? i with
          | none => none
          | some p =>
            match getNearestCluster p cs with
            | none => none
            | some nearest =>
              (phaseAFrom ps cs (i + 1) fuel).map
                (fun rest => (nearest % 256, p) :: rest)) = none
    by_cases hi : i < ps.length
    · have hget : ps.get? i = some ps[i] := by
        rw [List.get?_eq_getElem?]
        exact List.getElem?_eq_getElem hi
      simp only [hget, getNearestCluster_eq_some _ cs hcs,
        ih (i + 1) (by omega) (by omega), Option.map_none]
      rfl
    · have hget : ps.get? i = none := by
        rw [List.get?_eq_getElem?]
        exact List.getElem?_eq_none (by omega)
      rw [hget]

theorem conc_members (ps' cs : List point_t) (i : Nat)
    (hle : ∀ p ∈ ps', nearestD p cs < 256) :
    ((ps'.map (fun p => (nearestD p cs % 256, p))).filter
        (fun q => q.1 == i)).map Prod.snd = membersOf ps' cs i := by
  rw [List.filter_map, List.map_map]
  have h1 : ((fun q : Nat × point_t => q.1 == i) ∘
      fun p => (nearestD p cs % 256, p)) = fun p => nearestD p cs % 256 == i := rfl
  rw [h1]
  have h2 : List.filter (fun p => nearestD p cs % 256 == i) ps' =
      List.filter (fun p => nearestD p cs == i) ps' := by
    apply List.filter_congr
    intro a ha
    rw [Nat.mod_eq_of_lt (hle a ha)]
  have h3 : (Prod.snd ∘ fun p : point_t => (nearestD p cs % 256, p)) = id := rfl
  rw [h2, h3, List.map_id]
  rfl

theorem concUpdate_eq_stepAux (ps' cs : List point_t)
    (σ₀ : Nat → List point_t → List point_t)
    (hσ : ∀ c l, List.Perm (σ₀ c l) l)
    (hle : ∀ p ∈ ps', nearestD p cs < 256) :
    ∀ (cst : List point_t) (i : Nat),
      concUpdate σ₀ (ps'.map (fun p => (nearestD p cs % 256, p))) i cst =
        stepAux ps' cs i cst := by
  intro cst
  induction cst with
  | nil => intro i; rfl
  | cons c cr ih =>
    intro i
    have hmem := conc_members ps' cs i hle
    have hperm : List.Perm (σ₀ i (membersOf ps' cs i)) (membersOf ps' cs i) := hσ i _
    have hlen : (σ₀ i (membersOf ps' cs i)).length = (membersOf ps' cs i).length :=
      hperm.length_eq
    have hsx : sumX (σ₀ i (membersOf ps' cs i)) = sumX (membersOf ps' cs i) :=
      (hperm.map point_t.x).sum_eq
    have hsy : sumY (σ₀ i (membersOf ps' cs i)) = sumY (membersOf ps' cs i) :=
      (hperm.map point_t.y).sum_eq
    show (let mem := σ₀ i (((ps'.map (fun p => (nearestD p cs % 256, p))).filter
            (fun q => q.1 == i)).map Prod.snd)
          (if mem.length = 0 then c
           else ⟨(sumX mem).tdiv mem.length, (sumY mem).tdiv mem.length⟩))
        :: concUpdate σ₀ (ps'.map (fun p => (nearestD p cs % 256, p))) (i + 1) cr =
      (let mem := membersOf ps' cs i
       (if mem.length = 0 then c
        else ⟨(sumX mem).tdiv mem.length, (sumY mem).tdiv mem.length⟩))
        :: stepAux ps' cs (i + 1) cr
    rw [hmem, ih (i + 1)]
    simp only [hlen, hsx, hsy]

theorem concIter_spec (ps cs : List point_t) (n : Nat)
    (σ₀ : Nat → List point_t → List point_t)
    (hcs : cs ≠ []) (hn : n ≤ ps.length) (h256 : cs.length ≤ 256)
    (hσ : ∀ c l, List.Perm (σ₀ c l) l) :
    concIter ps cs n σ₀ =
      some (stepCentroids (ps.take n) cs,
            (ps.take n).map (fun p => nearestD p cs % 256) ++
              List.replicate (ps.length - n) 0) := by
  have hA : concPhaseA ps cs n =
      some ((ps.take n).map (fun p => (nearestD p cs % 256, p))) := by
    have := phaseAFrom_some ps cs hcs n 0 (by omega)
    rw [List.drop_zero] at this
    exact this
  have hle : ∀ p ∈ ps.take n, nearestD p cs < 256 := by
    intro p hp
    exact lt_of_lt_of_le (nearestD_lt_length p cs hcs) h256
  rw [concIter]
  simp only [hA]
  have hupd := concUpdate_eq_stepAux (ps.take n) cs σ₀ hσ hle cs 0
  rw [hupd]
  have hfst : ((ps.take n).map (fun p => (nearestD p cs % 256, p))).map Prod.fst =
      (ps.take n).map (fun p => nearestD p cs % 256) := by
    rw [List.map_map]
    rfl
  rw [hfst]
  rfl

theorem concLoop_eq_serialLoop (ps : List point_t) (k n : Nat)
    (σ : Nat → Nat → List point_t → List point_t)
    (hσ : ∀ it c l, List.Perm (σ it c l) l)
    (hk1 : 1 ≤ k) (h256 : k ≤ 256) (hn : n ≤ ps.length) :
    ∀ (it : Nat) (cs : List point_t) (a : List Nat), cs.length = k →
      concLoop ps k n σ it cs (a ++ List.replicate (ps.length - n) 0) =
        (serialLoop (ps.take n) k it cs a).map
          (fun r => (r.1, r.2 ++ List.replicate (ps.length - n) 0)) := by
  intro it
  induction it with
  | zero => intro cs a hlen; rfl
  | succ it ih =>
    intro cs a hlen
    have hne : cs ≠ [] := by
      intro hnil; rw [hnil] at hlen; simp at hlen; omega
    have hiterC := concIter_spec ps cs n (σ it) hne hn (by omega) (hσ it)
    have hiterS := serialIter_spec (ps.take n) k cs hne hlen
    have h1 : concLoop ps k n σ (it + 1) cs (a ++ List.replicate (ps.length - n) 0) =
        match concIter ps cs n (σ it) with
        | none => none
        | some (cs2, a2) => concLoop ps k n σ it cs2 a2 := rfl
    have h2 : serialLoop (ps.take n) k (it + 1) cs a =
        match serialIter (ps.take n) k cs with
        | none => none
        | some (cs2, a2) => serialLoop (ps.take n) k it cs2 a2 := rfl
    rw [h1, h2, hiterC, hiterS]
    exact ih (stepCentroids (ps.take n) cs)
      ((ps.take n).map (fun p => nearestD p cs % 256))
      (by rw [stepCentroids_length, hlen])

theorem concCompute_eq_serialCompute_take (ps : List point_t) (k iters n : Nat)
    (σ : Nat → Nat → List point_t → List point_t)
    (hσ : ∀ it c l, List.Perm (σ it c l) l)
    (hk1 : 1 ≤ k) (h256 : k ≤ 256) (hkn : k ≤ n) (hn : n ≤ ps.length) :
    concCompute ps k iters n σ =
      (serialCompute (ps.take n) k iters).map
        (fun r => (r.1, r.2 ++ List.replicate (ps.length - n) 0)) := by
  have hkp : k ≤ ps.length := le_trans hkn hn
  have htn : (ps.take n).length = n := length_take_of_le ps n hn
  rw [concCompute, if_pos hkp, serialCompute, if_pos (by rw [htn]; exact hkn)]
  have hseed : (ps.take n).take k = ps.take k := by
    rw [List.take_take]
    congr 1
    omega
  have hpad : List.replicate ps.length (0 : Nat) =
      List.replicate n 0 ++ List.replicate (ps.length - n) 0 := by
    rw [← List.replicate_add]
    congr 1
    omega
  rw [hseed, htn, hpad]
  exact concLoop_eq_serialLoop ps k n σ hσ hk1 h256 hn iters (ps.take k)
    (List.replicate n 0) (length_take_of_le ps k hkp)

theorem concCompute_eq_serialCompute (ps : List point_t) (k iters : Nat)
    (σ : Nat → Nat → List point_t → List point_t)
    (hσ : ∀ it c l, List.Perm (σ it c l) l)
    (hk1 : 1 ≤ k) (h256 : k ≤ 256) (hkp : k ≤ ps.length) :
    concCompute ps k iters ps.length σ = serialCompute ps k iters := by
  rw [concCompute_eq_serialCompute_take ps k iters ps.length σ hσ hk1 h256 hkp (le_refl _)]
  rw [List.take_length]
  cases h : serialCompute ps k iters with
  | none => rfl
  | some r => cases r; simp

/-! ## Distinct points that are their own centroids -/

theorem getD_eq_getElem {α : Type} (l : List α) (c : Nat) (d : α) (h : c < l.length) :
    l.getD c d = l[c] := by
  simp [List.getD_eq_getElem?_getD, List.getElem?_eq_getElem h]

theorem nearestD_self (ps : List point_t) (hnd : ps.Nodup) (i : Nat) (hi : i < ps.length) :
    nearestD ps[i] ps = i := by
  have hne : ps ≠ [] := by
    intro h
    rw [h] at hi
    simp at hi
  have hm := nearestD_lt_length ps[i] ps hne
  have hmin := nearestD_min ps[i] ps hne i hi
  have hDi : distance ps[i] (ps.getD i ⟨0, 0⟩) = 0 := by
    rw [getD_eq_getElem ps i ⟨0, 0⟩ hi]
    exact (distance_eq_zero_iff _ _).mpr rfl
  have h0 : distance ps[i] (ps.getD (nearestD ps[i] ps) ⟨0, 0⟩) = 0 :=
    le_antisymm (le_of_le_of_eq hmin hDi) (distance_nonneg _ _)
  have heq : ps[i] = ps.getD (nearestD ps[i] ps) ⟨0, 0⟩ :=
    (distance_eq_zero_iff _ _).mp h0
  rw [getD_eq_getElem ps _ ⟨0, 0⟩ hm] at heq
  exact ((hnd.getElem_inj_iff).mp heq.symm)

theorem filter_nearest_singleton (ps cs : List point_t) (c : Nat) (hc : c < ps.length)
    (hkey : ∀ j, (hj : j < ps.length) → nearestD ps[j] cs = j) :
    List.filter (fun p => nearestD p cs == c) ps = [ps[c]] := by
  have hdecomp : ps = ps.take c ++ ps[c] :: ps.drop (c + 1) := by
    conv_lhs => rw [← List.take_append_drop c ps]
    rw [List.drop_eq_getElem_cons hc]
  conv_lhs => rw [hdecomp]
  rw [List.filter_append, List.filter_cons]
  have h1 : List.filter (fun p => nearestD p cs == c) (ps.take c) = [] := by
    rw [List.filter_eq_nil_iff]
    intro a ha
    rw [List.mem_iff_get] at ha
    obtain ⟨⟨j, hj⟩, rfl⟩ := ha
    have hjlen := hj
    rw [List.length_take] at hjlen
    have hjc : j < c := by omega
    have hjp : j < ps.length := by omega
    have hget : (ps.take c).get ⟨j, hj⟩ = ps[j] := by
      rw [List.get_eq_getElem]
      exact (List.getElem_take' ps hjp hjc).symm
    rw [hget, hkey j hjp]
    simp
    omega
  have h3 : List.filter (fun p => nearestD p cs == c) (ps.drop (c + 1)) = [] := by
    rw [List.filter_eq_nil_iff]
    intro a ha
    rw [List.mem_iff_get] at ha
    obtain ⟨⟨j, hj⟩, rfl⟩ := ha
    have hjlen := hj
    rw [List.length_drop] at hjlen
    have hcj : c + 1 + j < ps.length := by omega
    have hget : (ps.drop (c + 1)).get ⟨j, hj⟩ = ps[c + 1 + j] := by
      rw [List.get_eq_getElem]
      exact List.getElem_drop ps
    rw [hget, hkey _ hcj]
    simp
    omega
  have hc2 : (nearestD ps[c] cs == c) = true := by
    rw [hkey c hc]
    simp
  rw [h1, h3, if_pos hc2]
  rfl

theorem membersOf_self (ps : List point_t) (hnd : ps.Nodup) (c : Nat) (hc : c < ps.length) :
    membersOf ps ps c = [ps[c]] :=
  filter_nearest_singleton ps ps c hc (fun j hj => nearestD_self ps hnd j hj)

theorem stepCentroids_self (ps : List point_t) (hnd : ps.Nodup) :
    stepCentroids ps ps = ps := by
  apply List.ext_getElem (by rw [stepCentroids_length])
  intro c h1 h2
  have hcp : c < ps.length := h2
  have hL : (stepCentroids ps ps)[c] = (stepCentroids ps ps).getD c ⟨0, 0⟩ :=
    (getD_eq_getElem _ c ⟨0, 0⟩ h1).symm
  rw [hL, stepCentroids_getD ps ps c hcp, membersOf_self ps hnd c hcp]
  have hlen1 : ([ps[c]] : List point_t).length = 1 := rfl
  rw [if_neg (by rw [hlen1]; omega)]
  have hx : sumX [ps[c]] = ps[c].x := by simp [sumX]
  have hy : sumY [ps[c]] = ps[c].y := by simp [sumY]
  rw [hx, hy, hlen1]
  ext
  · simp [Int.tdiv_one]
  · simp [Int.tdiv_one]

theorem asgn_range_self (ps : List point_t) (hnd : ps.Nodup) (h256 : ps.length ≤ 256) :
    ps.map (fun p => nearestD p ps % 256) = List.range ps.length := by
  apply List.ext_getElem (by rw [List.length_map, List.length_range])
  intro c h1 h2
  rw [List.getElem_map, List.getElem_range]
  have hcp : c < ps.length := by rw [List.length_map] at h1; exact h1
  rw [nearestD_self ps hnd c hcp]
  exact Nat.mod_eq_of_lt (by omega)

theorem serialLoop_fixed (ps : List point_t) (k : Nat) (hnd : ps.Nodup)
    (hk : k = ps.length) (hk1 : 1 ≤ k) (h256 : k ≤ 256) :
    ∀ (it : Nat) (a : List Nat), serialLoop ps k (it + 1) ps a = some (ps, List.range k) := by
  have hne : ps ≠ [] := by
    intro h
    rw [h] at hk
    simp at hk
    omega
  have hfix : serialIter ps k ps = some (ps, List.range k) := by
    rw [serialIter_spec ps k ps hne hk.symm, stepCentroids_self ps hnd,
      asgn_range_self ps hnd (hk ▸ h256), hk]
  intro it
  induction it with
  | zero =>
    intro a
    have h1 : serialLoop ps k (0 + 1) ps a =
        match serialIter ps k ps with
        | none => none
        | some (cs2, a2) => serialLoop ps k 0 cs2 a2 := rfl
    rw [h1]
    simp only [hfix]
    rfl
  | succ it ih =>
    intro a
    have h1 : serialLoop ps k (it + 1 + 1) ps a =
        match serialIter ps k ps with
        | none => none
        | some (cs2, a2) => serialLoop ps k (it + 1) cs2 a2 := rfl
    rw [h1]
    simp only [hfix]
    exact ih (List.range k)

theorem concCompute_none_of_gt (ps : List point_t) (k iters n : Nat)
    (σ : Nat → Nat → List point_t → List point_t)
    (hk1 : 1 ≤ k) (hkp : k ≤ ps.length) (hit : 1 ≤ iters) (hgt : ps.length < n) :
    concCompute ps k iters n σ = none := by
  rw [concCompute, if_pos hkp]
  obtain ⟨it, rfl⟩ : ∃ it, iters = it + 1 := ⟨iters - 1, by omega⟩
  have hlen : (ps.take k).length = k := length_take_of_le ps k hkp
  have hne : ps.take k ≠ [] := by
    intro hnil
    rw [hnil] at hlen
    simp at hlen
    omega
  have hA : concPhaseA ps (ps.take k) n = none :=
    phaseAFrom_none ps (ps.take k) hne n 0 (by omega) (by omega)
  have h1 : concLoop ps k n σ (it + 1) (ps.take k) (List.replicate ps.length 0) =
      match concIter ps (ps.take k) n (σ it) with
      | none => none
      | some (cs2, a2) => concLoop ps k n σ it cs2 a2 := rfl
  rw [h1, concIter]
  simp [hA]

/-! ## Claim theorems -/

/-- C1: for any fixed input with matching init (recorded point count equal
to `points.size()`), `1 ≤ k ≤ 256` and `k ≤ points.size()`, the concurrent
engine's centroids and assignments are bit-identical to the sequential
engine's, regardless of worker-pool size, chunking or task scheduling order:
the theorem quantifies over every schedule `σ` that permutes each cluster's
accumulated member list. -/
theorem claim_C1 (ps : List point_t) (k iters : Nat)
    (σ : Nat → Nat → List point_t → List point_t)
    (hσ : ∀ it c l, List.Perm (σ it c l) l)
    (hk1 : 1 ≤ k) (hk2 : k ≤ 256) (hkp : k ≤ ps.length) :
    concCompute ps k iters ps.length σ = serialCompute ps k iters :=
  concCompute_eq_serialCompute ps k iters σ hσ hk1 hk2 hkp

/-- Witness for C1 at a concrete input, with a schedule that reverses every
cluster's member list. -/
theorem claim_C1_witness :
    concCompute [⟨0, 0⟩, ⟨3, 4⟩, ⟨9, 9⟩] 2 2 3 (fun _ _ l => l.reverse) =
      serialCompute [⟨0, 0⟩, ⟨3, 4⟩, ⟨9, 9⟩] 2 2 :=
  claim_C1 [⟨0, 0⟩, ⟨3, 4⟩, ⟨9, 9⟩] 2 2 (fun _ _ l => l.reverse)
    (fun _ _ l => List.reverse_perm l) (by decide) (by decide) (by decide)

/-- C3: for every point and nonempty centroid list, the squared distance is
non-negative and nearest-centroid search returns the smallest index at which
the squared distance is minimal: the result has minimal distance, and every
smaller index has strictly greater distance, so on an exact tie the lower
index wins. -/
theorem claim_C3 (p : point_t) (cs : List point_t) (h : cs ≠ []) :
    (∀ q : point_t, 0 ≤ distance p q) ∧
    ∃ m, getNearestCluster p cs = some m ∧ m < cs.length ∧
      (∀ j, j < cs.length →
        distance p (cs.getD m ⟨0, 0⟩) ≤ distance p (cs.getD j ⟨0, 0⟩)) ∧
      (∀ j, j < m →
        distance p (cs.getD m ⟨0, 0⟩) < distance p (cs.getD j ⟨0, 0⟩)) :=
  ⟨fun q => distance_nonneg p q, getNearestCluster_spec p cs h⟩

/-- Witness for C3 at a concrete tie: `(0,1)` and `(1,0)` are equidistant
from `(0,0)` and index 0 wins. -/
theorem claim_C3_witness :
    ([⟨0, 1⟩, ⟨1, 0⟩] : List point_t) ≠ [] ∧
    distance ⟨0, 0⟩ ⟨0, 1⟩ = distance ⟨0, 0⟩ ⟨1, 0⟩ ∧
    ((∀ q : point_t, 0 ≤ distance ⟨0, 0⟩ q) ∧
     ∃ m, getNearestCluster ⟨0, 0⟩ [⟨0, 1⟩, ⟨1, 0⟩] = some m ∧
       m < ([⟨0, 1⟩, ⟨1, 0⟩] : List point_t).length ∧
       (∀ j, j < ([⟨0, 1⟩, ⟨1, 0⟩] : List point_t).length →
         distance ⟨0, 0⟩ (List.getD [⟨0, 1⟩, ⟨1, 0⟩] m ⟨0, 0⟩) ≤
           distance ⟨0, 0⟩ (List.getD [⟨0, 1⟩, ⟨1, 0⟩] j ⟨0, 0⟩)) ∧
       (∀ j, j < m →
         distance ⟨0, 0⟩ (List.getD [⟨0, 1⟩, ⟨1, 0⟩] m ⟨0, 0⟩) <
           distance ⟨0, 0⟩ (List.getD [⟨0, 1⟩, ⟨1, 0⟩] j ⟨0, 0⟩))) :=
  ⟨by decide, by decide, claim_C3 ⟨0, 0⟩ [⟨0, 1⟩, ⟨1, 0⟩] (by decide)⟩

/-- C5 counterexample: on the configuration-error input `iters = 0` the
serial engine detects nothing and happily returns the seeded centroids and
zeroed assignments, rather than reporting an error and returning no
centroids or assignments. -/
theorem claim_C5_counterexample :
    serialCompute [⟨1, 2⟩] 1 0 = some ([⟨1, 2⟩], [0]) ∧
    serialCompute [⟨1, 2⟩] 1 0 ≠ none := by decide

/-- C5 amended: the core engines perform no configuration validation at
`init`/`compute` entry.  `k = 0`, `iters = 0`, `k > 256` and `iters > 1000`
are filtered only by the out-of-scope CLI harness before any engine runs;
`compute` with `iters = 0` returns the seeded centroids and zeroed
assignments without error; fewer points than `k` (in either engine) and
`k = 0` on a nonempty input (serial engine) lead to out-of-bounds accesses
(modelled as `none`), not to a named error. -/
theorem claim_C5_amended (ps : List point_t) (k iters : Nat) :
    (harnessArgsOk k iters = true ↔ 1 ≤ k ∧ k ≤ 256 ∧ 1 ≤ iters ∧ iters ≤ 1000) ∧
    (k ≤ ps.length → serialCompute ps k 0 = some (ps.take k, List.replicate ps.length 0)) ∧
    (ps.length < k → serialCompute ps k iters = none ∧
      ∀ n σ, concCompute ps k iters n σ = none) ∧
    (k = 0 → ps ≠ [] → 1 ≤ iters → serialCompute ps k iters = none) := by
  refine ⟨?_, ?_, ?_, ?_⟩
  · simp [harnessArgsOk]
    omega
  · intro h
    rw [serialCompute, if_pos h]
    rfl
  · intro h
    refine ⟨by rw [serialCompute, if_neg (by omega)], ?_⟩
    intro n σ
    rw [concCompute, if_neg (by omega)]
  · rintro rfl hne hit
    obtain ⟨it, rfl⟩ : ∃ it, iters = it + 1 := ⟨iters - 1, by omega⟩
    match ps, hne with
    | p :: tail, _ =>
      rw [serialCompute, if_pos (by simp)]
      rfl

/-- Witness for C5 (amended): fewer points than `k` makes the serial
compute fail. -/
theorem claim_C5_witness : serialCompute [⟨0, 0⟩] 2 1 = none :=
  ((claim_C5_amended [⟨0, 0⟩] 2 1).2.2.1 (by decide)).1

/-- C6 counterexample: on the spec's scenario the code does not produce the
claimed output — point `(10,0)` is itself the second seed centroid
(distance 0), so it is assigned to cluster 1, not 0, and the resulting
centroids are `(0,5)` and `(10,5)`, not `(3,3)` and `(10,10)`. -/
theorem claim_C6_counterexample :
    serialCompute [⟨0, 0⟩, ⟨10, 0⟩, ⟨0, 10⟩, ⟨10, 10⟩] 2 1 ≠
      some ([⟨3, 3⟩, ⟨10, 10⟩], [0, 0, 0, 1]) := by decide

/-- C6 amended: with points `[(0,0),(10,0),(0,10),(10,10)]`, `k = 2` and one
iteration, the engine seeds centroids `(0,0)` and `(10,0)`, assigns the
points to clusters `[0, 1, 0, 1]` (point `(10,0)` lies exactly on seed 1),
and returns centroids `(0,5)` and `(10,5)`. -/
theorem claim_C6_amended :
    serialCompute [⟨0, 0⟩, ⟨10, 0⟩, ⟨0, 10⟩, ⟨10, 10⟩] 2 1 =
      some ([⟨0, 5⟩, ⟨10, 5⟩], [0, 1, 0, 1]) := by decide

/-- C8 counterexample: a repeated `init` of the concurrent engine with a
different `k` (first `k = 1`, then `k = 2`) leaves per-cluster storage of
size 3, not 2 — prior storage is not replaced. -/
theorem claim_C8_counterexample :
    (concInit (concInit [] 1) 2).length = 3 ∧
    (concInit (concInit [] 1) 2).length ≠ 2 := by decide

/-- C8 amended: the serial engine's `init` resizes its per-cluster buffers
to size exactly `k`, replacing prior storage, and the concurrent engine's
`init` produces size `k` only from a fresh (empty) state; a repeated
concurrent `init` appends `k` more per-cluster containers, giving size
`old + k`. -/
theorem claim_C8_amended (old : List point_t) (oldc : List Nat)
    (oldT : List (List point_t)) (k : Nat) :
    (serialInitSums old k).length = k ∧
    (serialInitCounts oldc k).length = k ∧
    (concInit [] k).length = k ∧
    (concInit oldT k).length = oldT.length + k := by
  refine ⟨?_, ?_, ?_, ?_⟩
  · simp [serialInitSums]
    omega
  · simp [serialInitCounts]
    omega
  · simp [concInit]
  · simp [concInit]

/-- C10: the concurrent compute iterates over the point count `n` recorded
by the last `init`, not over the length of the vector passed to `compute`:
if the vector is shorter than `n` the engine reads past its end (`none`);
if it is longer, the computation is exactly the one on the first `n` points,
with the trailing points never assigned (their assignment slots keep the
zero from the initial resize) and never accumulated. -/
theorem claim_C10 (ps : List point_t) (k iters n : Nat)
    (σ : Nat → Nat → List point_t → List point_t)
    (hσ : ∀ it c l, List.Perm (σ it c l) l)
    (hk1 : 1 ≤ k) (hk2 : k ≤ 256) (hkp : k ≤ ps.length) :
    (ps.length < n → 1 ≤ iters → concCompute ps k iters n σ = none) ∧
    (n ≤ ps.length → k ≤ n →
      concCompute ps k iters n σ =
        (serialCompute (ps.take n) k iters).map
          (fun r => (r.1, r.2 ++ List.replicate (ps.length - n) 0))) :=
  ⟨fun hgt hit => concCompute_none_of_gt ps k iters n σ hk1 hkp hit hgt,
   fun hn hkn => concCompute_eq_serialCompute_take ps k iters n σ hσ hk1 hk2 hkn hn⟩

/-- Witness for C10 at a concrete input: recorded count 1 with two points
passed — the second point is ignored and its assignment slot stays 0. -/
theorem claim_C10_witness :
    (([⟨0, 0⟩, ⟨7, 7⟩] : List point_t).length < 1 → 1 ≤ 1 →
      concCompute [⟨0, 0⟩, ⟨7, 7⟩] 1 1 1 (fun _ _ l => l) = none) ∧
    (1 ≤ ([⟨0, 0⟩, ⟨7, 7⟩] : List point_t).length → 1 ≤ 1 →
      concCompute [⟨0, 0⟩, ⟨7, 7⟩] 1 1 1 (fun _ _ l => l) =
        (serialCompute (([⟨0, 0⟩, ⟨7, 7⟩] : List point_t).take 1) 1 1).map
          (fun r => (r.1,
            r.2 ++ List.replicate (([⟨0, 0⟩, ⟨7, 7⟩] : List point_t).length - 1) 0))) :=
  claim_C10 [⟨0, 0⟩, ⟨7, 7⟩] 1 1 1 (fun _ _ l => l)
    (fun _ _ l => List.Perm.refl l) (by decide) (by decide) (by decide)

/-- C2: in both engines, every cluster that is nonempty in the final
iteration gets as its returned centroid the per-axis truncating integer
division of the sum of its members' coordinates by the member count, where
the members are exactly the points whose nearest centroid (against the
centroids at the start of the final iteration) is that cluster. -/
theorem claim_C2 (ps : List point_t) (k iters : Nat)
    (σ : Nat → Nat → List point_t → List point_t)
    (hσ : ∀ it c l, List.Perm (σ it c l) l)
    (hk1 : 1 ≤ k) (hk2 : k ≤ 256) (hkp : k ≤ ps.length) (hit : 1 ≤ iters) :
    ∃ csPrev aPrev cs asgn,
      serialCompute ps k (iters - 1) = some (csPrev, aPrev) ∧
      serialCompute ps k iters = some (cs, asgn) ∧
      concCompute ps k iters ps.length σ = some (cs, asgn) ∧
      ∀ c, c < k → (membersOf ps csPrev c).length ≠ 0 →
        (cs.getD c ⟨0, 0⟩).x =
          (sumX (membersOf ps csPrev c)).tdiv (membersOf ps csPrev c).length ∧
        (cs.getD c ⟨0, 0⟩).y =
          (sumY (membersOf ps csPrev c)).tdiv (membersOf ps csPrev c).length := by
  obtain ⟨csPrev, aPrev, hprev, hlenPrev, hfinal⟩ :=
    serialCompute_final ps k iters hk1 hkp hit
  refine ⟨csPrev, aPrev, stepCentroids ps csPrev,
    ps.map (fun p => nearestD p csPrev % 256), hprev, hfinal, ?_, ?_⟩
  · rw [concCompute_eq_serialCompute ps k iters σ hσ hk1 hk2 hkp]
    exact hfinal
  · intro c hc hne
    have hclen : c < csPrev.length := by omega
    rw [stepCentroids_getD ps csPrev c hclen, if_neg hne]
    exact ⟨rfl, rfl⟩

/-- Witness for C2 at the four-point scenario with one iteration. -/
theorem claim_C2_witness :
    ∃ csPrev aPrev cs asgn,
      serialCompute [⟨0, 0⟩, ⟨10, 0⟩, ⟨0, 10⟩, ⟨10, 10⟩] 2 (1 - 1) = some (csPrev, aPrev) ∧
      serialCompute [⟨0, 0⟩, ⟨10, 0⟩, ⟨0, 10⟩, ⟨10, 10⟩] 2 1 = some (cs, asgn) ∧
      concCompute [⟨0, 0⟩, ⟨10, 0⟩, ⟨0, 10⟩, ⟨10, 10⟩] 2 1
        ([⟨0, 0⟩, ⟨10, 0⟩, ⟨0, 10⟩, ⟨10, 10⟩] : List point_t).length
        (fun _ _ l => l) = some (cs, asgn) ∧
      ∀ c, c < 2 →
        (membersOf [⟨0, 0⟩, ⟨10, 0⟩, ⟨0, 10⟩, ⟨10, 10⟩] csPrev c).length ≠ 0 →
        (cs.getD c ⟨0, 0⟩).x =
          (sumX (membersOf [⟨0, 0⟩, ⟨10, 0⟩, ⟨0, 10⟩, ⟨10, 10⟩] csPrev c)).tdiv
            (membersOf [⟨0, 0⟩, ⟨10, 0⟩, ⟨0, 10⟩, ⟨10, 10⟩] csPrev c).length ∧
        (cs.getD c ⟨0, 0⟩).y =
          (sumY (membersOf [⟨0, 0⟩, ⟨10, 0⟩, ⟨0, 10⟩, ⟨10, 10⟩] csPrev c)).tdiv
            (membersOf [⟨0, 0⟩, ⟨10, 0⟩, ⟨0, 10⟩, ⟨10, 10⟩] csPrev c).length :=
  claim_C2 [⟨0, 0⟩, ⟨10, 0⟩, ⟨0, 10⟩, ⟨10, 10⟩] 2 1 (fun _ _ l => l)
    (fun _ _ l => List.Perm.refl l) (by decide) (by decide) (by decide) (by decide)

/-- C4: a cluster with zero members in an iteration keeps its centroid
unchanged through that iteration (serial and concurrent single-iteration
steps), and consequently a cluster that is empty in the final iteration
returns its centroid value from the start of the final iteration. -/
theorem claim_C4 (ps : List point_t) (k iters : Nat)
    (hk1 : 1 ≤ k) (hkp : k ≤ ps.length) (hit : 1 ≤ iters) :
    (∀ (cs : List point_t) (c : Nat), cs.length = k → c < k →
      (membersOf ps cs c).length = 0 →
      ∃ cs2 a2, serialIter ps k cs = some (cs2, a2) ∧
        cs2.getD c ⟨0, 0⟩ = cs.getD c ⟨0, 0⟩) ∧
    (∀ (cs : List point_t) (c n : Nat) (σ₀ : Nat → List point_t → List point_t),
      (∀ cl l, List.Perm (σ₀ cl l) l) → cs.length = k → k ≤ 256 → c < k →
      n ≤ ps.length → (membersOf (ps.take n) cs c).length = 0 →
      ∃ cs2 a2, concIter ps cs n σ₀ = some (cs2, a2) ∧
        cs2.getD c ⟨0, 0⟩ = cs.getD c ⟨0, 0⟩) ∧
    (∃ csPrev aPrev cs asgn,
      serialCompute ps k (iters - 1) = some (csPrev, aPrev) ∧
      serialCompute ps k iters = some (cs, asgn) ∧
      ∀ c, c < k → (membersOf ps csPrev c).length = 0 →
        cs.getD c ⟨0, 0⟩ = csPrev.getD c ⟨0, 0⟩) := by
  refine ⟨?_, ?_, ?_⟩
  · intro cs c hlen hc hemp
    have hne : cs ≠ [] := by
      intro h; rw [h] at hlen; simp at hlen; omega
    refine ⟨stepCentroids ps cs, ps.map (fun p => nearestD p cs % 256),
      serialIter_spec ps k cs hne hlen, ?_⟩
    rw [stepCentroids_getD ps cs c (by omega), if_pos hemp]
  · intro cs c n σ₀ hσ₀ hlen h256 hc hn hemp
    have hne : cs ≠ [] := by
      intro h; rw [h] at hlen; simp at hlen; omega
    refine ⟨stepCentroids (ps.take n) cs,
      (ps.take n).map (fun p => nearestD p cs % 256) ++
        List.replicate (ps.length - n) 0,
      concIter_spec ps cs n σ₀ hne hn (by omega) hσ₀, ?_⟩
    rw [stepCentroids_getD (ps.take n) cs c (by omega), if_pos hemp]
  · obtain ⟨csPrev, aPrev, hprev, hlenPrev, hfinal⟩ :=
      serialCompute_final ps k iters hk1 hkp hit
    refine ⟨csPrev, aPrev, stepCentroids ps csPrev,
      ps.map (fun p => nearestD p csPrev % 256), hprev, hfinal, ?_⟩
    intro c hc hemp
    rw [stepCentroids_getD ps csPrev c (by omega), if_pos hemp]

/-- Witness for C4 at a concrete input with two identical points and `k = 2`:
cluster 1 ends up empty. -/
theorem claim_C4_witness :
    (∀ (cs : List point_t) (c : Nat), cs.length = 2 → c < 2 →
      (membersOf [⟨0, 0⟩, ⟨0, 0⟩] cs c).length = 0 →
      ∃ cs2 a2, serialIter [⟨0, 0⟩, ⟨0, 0⟩] 2 cs = some (cs2, a2) ∧
        cs2.getD c ⟨0, 0⟩ = cs.getD c ⟨0, 0⟩) ∧
    (∀ (cs : List point_t) (c n : Nat) (σ₀ : Nat → List point_t → List point_t),
      (∀ cl l, List.Perm (σ₀ cl l) l) → cs.length = 2 → 2 ≤ 256 → c < 2 →
      n ≤ ([⟨0, 0⟩, ⟨0, 0⟩] : List point_t).length →
      (membersOf (([⟨0, 0⟩, ⟨0, 0⟩] : List point_t).take n) cs c).length = 0 →
      ∃ cs2 a2, concIter [⟨0, 0⟩, ⟨0, 0⟩] cs n σ₀ = some (cs2, a2) ∧
        cs2.getD c ⟨0, 0⟩ = cs.getD c ⟨0, 0⟩) ∧
    (∃ csPrev aPrev cs asgn,
      serialCompute [⟨0, 0⟩, ⟨0, 0⟩] 2 (1 - 1) = some (csPrev, aPrev) ∧
      serialCompute [⟨0, 0⟩, ⟨0, 0⟩] 2 1 = some (cs, asgn) ∧
      ∀ c, c < 2 → (membersOf [⟨0, 0⟩, ⟨0, 0⟩] csPrev c).length = 0 →
        cs.getD c ⟨0, 0⟩ = csPrev.getD c ⟨0, 0⟩) :=
  claim_C4 [⟨0, 0⟩, ⟨0, 0⟩] 2 1 (by decide) (by decide) (by decide)

/-- C7: with `1 ≤ k ≤ 256`, `k ≤ points.size()` and `iters ≥ 1`, both
engines return one assignment per input point and every assignment value is
a valid centroid index below `k`. -/
theorem claim_C7 (ps : List point_t) (k iters : Nat)
    (σ : Nat → Nat → List point_t → List point_t)
    (hσ : ∀ it c l, List.Perm (σ it c l) l)
    (hk1 : 1 ≤ k) (hk2 : k ≤ 256) (hkp : k ≤ ps.length) (hit : 1 ≤ iters) :
    ∃ cs asgn, serialCompute ps k iters = some (cs, asgn) ∧
      concCompute ps k iters ps.length σ = some (cs, asgn) ∧
      asgn.length = ps.length ∧ ∀ a ∈ asgn, a < k := by
  obtain ⟨csPrev, aPrev, hprev, hlenPrev, hfinal⟩ :=
    serialCompute_final ps k iters hk1 hkp hit
  have hneP : csPrev ≠ [] := by
    intro h; rw [h] at hlenPrev; simp at hlenPrev; omega
  refine ⟨stepCentroids ps csPrev, ps.map (fun p => nearestD p csPrev % 256),
    hfinal, ?_, by simp, ?_⟩
  · rw [concCompute_eq_serialCompute ps k iters σ hσ hk1 hk2 hkp]
    exact hfinal
  · intro a ha
    rw [List.mem_map] at ha
    obtain ⟨p, hp, rfl⟩ := ha
    have h1 : nearestD p csPrev < k := hlenPrev ▸ nearestD_lt_length p csPrev hneP
    have h2 : nearestD p csPrev % 256 = nearestD p csPrev := Nat.mod_eq_of_lt (by omega)
    omega

/-- Witness for C7 at a concrete input. -/
theorem claim_C7_witness :
    ∃ cs asgn, serialCompute [⟨0, 0⟩, ⟨9, 9⟩] 2 1 = some (cs, asgn) ∧
      concCompute [⟨0, 0⟩, ⟨9, 9⟩] 2 1
        ([⟨0, 0⟩, ⟨9, 9⟩] : List point_t).length (fun _ _ l => l) = some (cs, asgn) ∧
      asgn.length = ([⟨0, 0⟩, ⟨9, 9⟩] : List point_t).length ∧ ∀ a ∈ asgn, a < 2 :=
  claim_C7 [⟨0, 0⟩, ⟨9, 9⟩] 2 1 (fun _ _ l => l) (fun _ _ l => List.Perm.refl l)
    (by decide) (by decide) (by decide) (by decide)

/-- C9 counterexample: with duplicated points `[(0,0),(0,0)]` and
`k = 2 =` number of points, both points go to cluster 0 (first minimum
wins), so the assignments are `[0,0]`, not `[0,1]`. -/
theorem claim_C9_counterexample :
    serialCompute [⟨0, 0⟩, ⟨0, 0⟩] 2 1 = some ([⟨0, 0⟩, ⟨0, 0⟩], [0, 0]) ∧
    ([0, 0] : List Nat) ≠ [0, 1] := by decide

/-- C9 amended: when `k` equals the number of points, the points are
pairwise distinct, `k ≤ 256` and at least one iteration runs, every point
becomes its own centroid: both engines return assignments `[0,...,k-1]` and
the centroids equal the input points, for every iteration count `≥ 1`. -/
theorem claim_C9_amended (ps : List point_t) (k iters : Nat)
    (σ : Nat → Nat → List point_t → List point_t)
    (hσ : ∀ it c l, List.Perm (σ it c l) l)
    (hnd : ps.Nodup) (hk : k = ps.length)
    (hk1 : 1 ≤ k) (hk2 : k ≤ 256) (hit : 1 ≤ iters) :
    serialCompute ps k iters = some (ps, List.range k) ∧
    concCompute ps k iters ps.length σ = some (ps, List.range k) := by
  have hkp : k ≤ ps.length := le_of_eq hk
  have hserial : serialCompute ps k iters = some (ps, List.range k) := by
    rw [serialCompute, if_pos hkp]
    obtain ⟨it, rfl⟩ : ∃ it, iters = it + 1 := ⟨iters - 1, by omega⟩
    have htake : ps.take k = ps := by rw [hk, List.take_length]
    rw [htake]
    exact serialLoop_fixed ps k hnd hk hk1 hk2 it _
  refine ⟨hserial, ?_⟩
  rw [concCompute_eq_serialCompute ps k iters σ hσ hk1 hk2 hkp]
  exact hserial

/-- Witness for C9 (amended) at three distinct points with two iterations. -/
theorem claim_C9_witness :
    serialCompute [⟨0, 0⟩, ⟨5, 5⟩, ⟨9, 9⟩] 3 2 =
      some ([⟨0, 0⟩, ⟨5, 5⟩, ⟨9, 9⟩], List.range 3) ∧
    concCompute [⟨0, 0⟩, ⟨5, 5⟩, ⟨9, 9⟩] 3 2
      ([⟨0, 0⟩, ⟨5, 5⟩, ⟨9, 9⟩] : List point_t).length (fun _ _ l => l) =
      some ([⟨0, 0⟩, ⟨5, 5⟩, ⟨9, 9⟩], List.range 3) :=
  claim_C9_amended [⟨0, 0⟩, ⟨5, 5⟩, ⟨9, 9⟩] 3 2 (fun _ _ l => l)
    (fun _ _ l => List.Perm.refl l) (by decide) (by decide)
    (by decide) (by decide) (by decide)
